import Mathlib

/-!
Verification of the Google News scraping pipeline
(google_news_web_scraper.py): a shallow embedding of the data model and
the keyword-filtering and counting functions, followed by theorems about
the properties its specification states.

Modelling choices:
* A string is a list of characters (`Str`).  The Python substring test
  `needle in hay` is `strIn needle hay`.
* An article node of the parsed tree is reduced to the one fact the code
  reads from it: the text of its first level-4 heading descendant, or
  nothing when no such heading exists (in which case `find` returns None
  and `.text` raises AttributeError, modelled as `Option.none`).
* The fetch-plus-parse step (`requests.get` and BeautifulSoup, external
  collaborators) is passed in as an `Except` value: `Except.ok soup` when
  both succeed, `Except.error e` when either raises; an exception
  propagating out of `scrape_and_analyze` is the `Except.error` branch,
  in which no export and no chart rendering happens.
* The Python dict built by the comprehension in `scrape_and_analyze` is
  an insertion-ordered association list: inserting an existing key
  overwrites its value in place, a new key is appended at the end.
* `max_article` is an integer (`Int`), since the code never restricts its
  sign and the comparison `len(titles) == max_article` is meaningful for
  zero and negative values too.
-/

/-- A string, modelled as its list of characters. -/
abbrev Str := List Char

/-- Python substring test: `strIn needle hay` is true exactly when
`needle` occurs contiguously inside `hay` (the empty needle always
occurs), as the Python operator `needle in hay` on strings. -/
def strIn (needle : Str) : Str → Bool
  | [] => needle.isEmpty
  | c :: rest => needle.isPrefixOf (c :: rest) || strIn needle rest

/-- Lowercasing of a string, character by character, as Python lower. -/
def lowerStr (s : Str) : Str := s.map Char.toLower

/-- An article node of the parsed tree: the text content of its first
level-4 heading descendant, when one exists. -/
structure Article where
  h4 : Option Str
deriving DecidableEq, Repr

/-- The parsed document tree, reduced to what the code traverses: the
article nodes in document order (`soup.find_all` with tag article). -/
structure Soup where
  articles : List Article
deriving DecidableEq, Repr

/-- Embeds `contains_keywords`: true when the searched string contains
any of the given keywords as a contiguous substring. -/
def contains_keywords (item_searched : Str) (items_searched_for : List Str) : Bool :=
  items_searched_for.any (fun keyword => strIn keyword item_searched)

/-- Embeds `get_title` at its one call site (tag level-4 heading): the
lowercased text of the first such heading of the node, or `none` when
the node has no such heading (the AttributeError case). -/
def get_title (article : Article) : Option Str :=
  article.h4.map lowerStr

/-- The loop of `get_filtered_titles`.  For each article in order: a
node whose title extraction fails is skipped by continue, which also
skips the length check of that iteration; otherwise the title is
appended when it contains a keyword, and the loop breaks when the
accumulated length equals `max_article` (an equality test, not an
at-least test). -/
def get_filtered_titles_loop (kws : List Str) (max_article : Int) :
    List Article → List Str → List Str
  | [], titles => titles
  | a :: rest, titles =>
    match get_title a with
    | none => get_filtered_titles_loop kws max_article rest titles
    | some title =>
      let titles' := if contains_keywords title kws then titles ++ [title] else titles
      if (titles'.length : Int) = max_article then titles'
      else get_filtered_titles_loop kws max_article rest titles'

/-- Embeds `get_filtered_titles`: the filtered title list extracted from
the parsed tree. -/
def get_filtered_titles (soup : Soup) (key_words : List Str) (max_article : Int) : List Str :=
  get_filtered_titles_loop key_words max_article soup.articles []

/-- One summand of the word count: Python booleans sum as 0 or 1. -/
def countFor (key : Str) (titles : List Str) : Nat :=
  (titles.map (fun title => if contains_keywords title [key] then 1 else 0)).sum

/-- Insertion into the insertion-ordered dictionary: an existing key is
overwritten in place, a new key is appended at the end (Python dict
assignment semantics). -/
def dictInsert (d : List (Str × Nat)) (k : Str) (v : Nat) : List (Str × Nat) :=
  if d.any (fun p => decide (p.1 = k)) then
    d.map (fun p => if p.1 = k then (k, v) else p)
  else d ++ [(k, v)]

/-- Lookup in the insertion-ordered dictionary. -/
def dictLookup (d : List (Str × Nat)) (k : Str) : Option Nat :=
  match d with
  | [] => none
  | p :: rest => if p.1 = k then some p.2 else dictLookup rest k

/-- Embeds the dict comprehension of `scrape_and_analyze`: for each key
of the keyword list in order, the number of filtered titles containing
it. -/
def word_count (key_words : List Str) (titles : List Str) : List (Str × Nat) :=
  key_words.foldl (fun d key => dictInsert d key (countFor key titles)) []

/-- The observable side effects of a run, in the order the code performs
them: the rows written to the spreadsheet, then the chart series shown. -/
inductive Effect where
  | exportRows (rows : List Str) : Effect
  | renderChart (chart : List (Str × Nat)) : Effect
deriving DecidableEq, Repr

/-- Embeds `scrape_and_analyze`: on a successful fetch-and-parse it
filters, exports, counts, renders and returns the pair; a fetch or parse
failure propagates and nothing after it runs. -/
def scrape_and_analyze (fetched : Except String Soup) (key_words : List Str)
    (max_article : Int) :
    Except String (List Effect × List Str × List (Str × Nat)) :=
  match fetched with
  | Except.error e => Except.error e
  | Except.ok soup =>
    let titles := get_filtered_titles soup key_words max_article
    let wc := word_count key_words titles
    Except.ok ([Effect.exportRows titles, Effect.renderChart wc], titles, wc)

/-- Specification-side reference for claim C10, following the spec words
"the filter returns every matching title in the tree": every
successfully extracted title that contains a keyword, in document
order, with no cap. -/
def allMatchingTitles (soup : Soup) (key_words : List Str) : List Str :=
  (soup.articles.filterMap get_title).filter (fun t => contains_keywords t key_words)

/-- Shared concrete title string. -/
def bankS : Str := "bank".toList

/-- Shared concrete title string containing the keyword twice. -/
def bankBankS : Str := "bank bank".toList

/-- Shared concrete one-article tree whose single heading reads bank. -/
def soupBank : Soup := ⟨[⟨some bankS⟩]⟩

/-- Shared concrete two-article tree with headings bank and bank bank. -/
def soupBanks2 : Soup := ⟨[⟨some bankS⟩, ⟨some bankBankS⟩]⟩

/-- Shared concrete five-article tree whose third node has no level-4
heading. -/
def soupFive : Soup :=
  ⟨[⟨some "n one".toList⟩, ⟨some "n two".toList⟩, ⟨none⟩,
    ⟨some "n four".toList⟩, ⟨some "n five".toList⟩]⟩

/-- With no keywords nothing is ever appended, so the loop returns its
accumulator unchanged whatever the articles and the cap are. -/
lemma loop_nil_kws (maxa : Int) (l : List Article) (acc : List Str) :
    get_filtered_titles_loop [] maxa l acc = acc := by
  induction l generalizing acc with
  | nil => rfl
  | cons a rest ih =>
    cases hg : get_title a with
    | none => simp only [get_filtered_titles_loop, hg, ih]
    | some t =>
      simp only [get_filtered_titles_loop, hg]
      have hc : ¬ (contains_keywords t [] = true) := by
        simp [contains_keywords]
      rw [if_neg hc]
      by_cases he : ((acc.length : Int) = maxa)
      · rw [if_pos he]
      · rw [if_neg he]
        exact ih acc

/-- The loop never grows its accumulator past a cap it starts below. -/
lemma loop_length_le (kws : List Str) (maxa : Int) (l : List Article)
    (acc : List Str) (h : (acc.length : Int) < maxa) :
    ((get_filtered_titles_loop kws maxa l acc).length : Int) ≤ maxa := by
  induction l generalizing acc with
  | nil => simpa [get_filtered_titles_loop] using le_of_lt h
  | cons a rest ih =>
    cases hg : get_title a with
    | none =>
      simp only [get_filtered_titles_loop, hg]
      exact ih acc h
    | some t =>
      simp only [get_filtered_titles_loop, hg]
      by_cases hc : contains_keywords t kws
      · rw [if_pos hc]
        have hlen : ((acc ++ [t]).length : Int) = (acc.length : Int) + 1 := by
          simp
        by_cases he : (((acc ++ [t]).length : Int) = maxa)
        · rw [if_pos he]
          omega
        · rw [if_neg he]
          exact ih (acc ++ [t]) (by omega)
      · rw [if_neg hc]
        by_cases he : ((acc.length : Int) = maxa)
        · rw [if_pos he]
          omega
        · rw [if_neg he]
          exact ih acc h

/-- Everything the loop returns was already accumulated or contains a
keyword. -/
lemma loop_mem (kws : List Str) (maxa : Int) (l : List Article)
    (acc : List Str) (t : Str)
    (h : t ∈ get_filtered_titles_loop kws maxa l acc) :
    t ∈ acc ∨ contains_keywords t kws = true := by
  induction l generalizing acc with
  | nil => exact Or.inl (by simpa [get_filtered_titles_loop] using h)
  | cons a rest ih =>
    cases hg : get_title a with
    | none =>
      rw [get_filtered_titles_loop, hg] at h
      exact ih acc h
    | some s =>
      simp only [get_filtered_titles_loop, hg] at h
      by_cases hc : contains_keywords s kws
      · rw [if_pos hc] at h
        have step : t ∈ acc ++ [s] → t ∈ acc ∨ contains_keywords t kws = true := by
          intro hm
          rcases List.mem_append.1 hm with hm | hm
          · exact Or.inl hm
          · right
            rw [List.mem_singleton.1 hm]
            exact hc
        by_cases he : (((acc ++ [s]).length : Int) = maxa)
        · rw [if_pos he] at h
          exact step h
        · rw [if_neg he] at h
          rcases ih (acc ++ [s]) h with hm | hm
          · exact step hm
          · exact Or.inr hm
      · rw [if_neg hc] at h
        by_cases he : ((acc.length : Int) = maxa)
        · rw [if_pos he] at h
          exact Or.inl h
        · rw [if_neg he] at h
          exact ih acc h

/-- An article without a level-4 heading can be dropped anywhere in the
article list without changing the result of the loop. -/
lemma loop_skip_none (kws : List Str) (maxa : Int) (l1 l2 : List Article)
    (acc : List Str) :
    get_filtered_titles_loop kws maxa (l1 ++ Article.mk none :: l2) acc =
      get_filtered_titles_loop kws maxa (l1 ++ l2) acc := by
  induction l1 generalizing acc with
  | nil =>
    have hg : get_title (Article.mk none) = none := rfl
    simp only [List.nil_append]
    conv_lhs => rw [get_filtered_titles_loop, hg]
  | cons a rest ih =>
    simp only [List.cons_append]
    cases hg : get_title a with
    | none =>
      rw [get_filtered_titles_loop, hg, get_filtered_titles_loop, hg]
      exact ih acc
    | some t =>
      simp only [get_filtered_titles_loop, hg]
      by_cases hc : contains_keywords t kws
      · simp only [if_pos hc]
        by_cases he : (((acc ++ [t]).length : Int) = maxa)
        · simp only [if_pos he]
        · simp only [if_neg he]
          exact ih _
      · simp only [if_neg hc]
        by_cases he : ((acc.length : Int) = maxa)
        · simp only [if_pos he]
        · simp only [if_neg he]
          exact ih _

/-- Below zero the cap test can never succeed, so the loop appends every
matching extracted title after its accumulator. -/
lemma loop_neg (kws : List Str) (maxa : Int) (h : maxa < 0)
    (l : List Article) (acc : List Str) :
    get_filtered_titles_loop kws maxa l acc =
      acc ++ (l.filterMap get_title).filter (fun t => contains_keywords t kws) := by
  induction l generalizing acc with
  | nil => simp [get_filtered_titles_loop]
  | cons a rest ih =>
    cases hg : get_title a with
    | none =>
      rw [get_filtered_titles_loop, hg]
      simp only [List.filterMap_cons, hg]
      exact ih acc
    | some t =>
      simp only [get_filtered_titles_loop, hg, List.filterMap_cons]
      by_cases hc : contains_keywords t kws
      · have hne : ¬ (((acc ++ [t]).length : Int) = maxa) := by
          have h0 : (0 : Int) ≤ ((acc ++ [t]).length : Int) := Int.natCast_nonneg _
          omega
        rw [if_pos hc, if_neg hne, ih, List.filter_cons, if_pos hc]
        simp
      · have hne : ¬ ((acc.length : Int) = maxa) := by
          have h0 : (0 : Int) ≤ ((acc.length : Int) : Int) := Int.natCast_nonneg _
          omega
        rw [if_neg hc, if_neg hne, ih, List.filter_cons, if_neg hc]

/-- A key carried by no entry of the dictionary is not found. -/
lemma dictLookup_eq_none (d : List (Str × Nat)) (k : Str)
    (h : d.any (fun p => decide (p.1 = k)) = false) :
    dictLookup d k = none := by
  induction d with
  | nil => rfl
  | cons p rest ih =>
    simp only [List.any_cons, Bool.or_eq_false_iff, decide_eq_false_iff_not] at h
    simp only [dictLookup, if_neg h.1]
    exact ih (by simpa using h.2)

/-- Appending an entry under a fresh key makes that key found with the
appended value. -/
lemma dictLookup_append_self (d : List (Str × Nat)) (k : Str) (v : Nat)
    (h : d.any (fun p => decide (p.1 = k)) = false) :
    dictLookup (d ++ [(k, v)]) k = some v := by
  induction d with
  | nil => simp [dictLookup]
  | cons p rest ih =>
    simp only [List.any_cons, Bool.or_eq_false_iff, decide_eq_false_iff_not] at h
    simp only [List.cons_append, dictLookup, if_neg h.1]
    exact ih (by simpa using h.2)

/-- Appending an entry under a different key changes no lookup of k. -/
lemma dictLookup_append_ne (d : List (Str × Nat)) (k k2 : Str) (v : Nat)
    (hne : ¬ (k2 = k)) :
    dictLookup (d ++ [(k2, v)]) k = dictLookup d k := by
  induction d with
  | nil => simp [dictLookup, hne]
  | cons p rest ih =>
    by_cases hp : p.1 = k
    · simp [dictLookup, hp]
    · simp [dictLookup, hp, ih]

/-- Overwriting the value of an existing key makes that key found with
the new value. -/
lemma dictLookup_overwrite (d : List (Str × Nat)) (k : Str) (v : Nat)
    (h : d.any (fun p => decide (p.1 = k)) = true) :
    dictLookup (d.map (fun p => if p.1 = k then (k, v) else p)) k = some v := by
  induction d with
  | nil => simp at h
  | cons p rest ih =>
    by_cases hp : p.1 = k
    · simp [dictLookup, hp]
    · simp only [List.any_cons, Bool.or_eq_true] at h
      have h2 : rest.any (fun p => decide (p.1 = k)) = true := by
        rcases h with h | h
        · exact absurd (of_decide_eq_true h) hp
        · exact h
      simp [dictLookup, hp, ih h2]

/-- Overwriting the value of a different key changes no lookup of k. -/
lemma dictLookup_overwrite_ne (d : List (Str × Nat)) (k k2 : Str) (v : Nat)
    (hne : ¬ (k2 = k)) :
    dictLookup (d.map (fun p => if p.1 = k2 then (k2, v) else p)) k = dictLookup d k := by
  induction d with
  | nil => rfl
  | cons p rest ih =>
    by_cases hp : p.1 = k2
    · have hpk : ¬ (p.1 = k) := by
        rw [hp]
        exact hne
      simp [dictLookup, hp, hpk, hne, ih]
    · by_cases hpk : p.1 = k
      · have hkk2 : ¬ (k = k2) := fun h => hne h.symm
        simp [dictLookup, hp, hpk, hkk2]
      · simp [dictLookup, hp, hpk, ih]

/-- Inserting a key makes it found with the inserted value. -/
lemma dictLookup_insert_self (d : List (Str × Nat)) (k : Str) (v : Nat) :
    dictLookup (dictInsert d k v) k = some v := by
  unfold dictInsert
  by_cases h : d.any (fun p => decide (p.1 = k)) = true
  · rw [if_pos h]
    exact dictLookup_overwrite d k v h
  · rw [if_neg h]
    exact dictLookup_append_self d k v (by rwa [Bool.not_eq_true] at h)

/-- Inserting a different key changes no lookup of k. -/
lemma dictLookup_insert_ne (d : List (Str × Nat)) (k k2 : Str) (v : Nat)
    (hne : ¬ (k2 = k)) :
    dictLookup (dictInsert d k2 v) k = dictLookup d k := by
  unfold dictInsert
  by_cases h : d.any (fun p => decide (p.1 = k2)) = true
  · rw [if_pos h]
    exact dictLookup_overwrite_ne d k k2 v hne
  · rw [if_neg h]
    exact dictLookup_append_ne d k k2 v hne

/-- Folding the dict comprehension over the keys: a key of the list, or
one already mapped to the right value, ends mapped to its value. -/
lemma foldl_insert_lookup (f : Str → Nat) (kws : List Str)
    (d : List (Str × Nat)) (k : Str)
    (h : k ∈ kws ∨ dictLookup d k = some (f k)) :
    dictLookup (kws.foldl (fun d key => dictInsert d key (f key)) d) k = some (f k) := by
  induction kws generalizing d with
  | nil =>
    rcases h with h | h
    · cases h
    · simpa using h
  | cons a kws ih =>
    simp only [List.foldl_cons]
    by_cases hk : k = a
    · subst hk
      exact ih _ (Or.inr (dictLookup_insert_self d k (f k)))
    · apply ih
      rcases h with h | h
      · rcases List.mem_cons.1 h with h | h
        · exact absurd h hk
        · exact Or.inl h
      · refine Or.inr ?_
        rw [dictLookup_insert_ne d k a (f a) (fun hak => hk hak.symm)]
        exact h

/-- The membership test used by the insert is key membership. -/
lemma any_key_iff (d : List (Str × Nat)) (k : Str) :
    d.any (fun p => decide (p.1 = k)) = true ↔ k ∈ d.map Prod.fst := by
  simp only [List.any_eq_true, decide_eq_true_eq, List.mem_map]

/-- The keys after an insert: unchanged for a known key, the new key at
the end for a fresh one. -/
lemma keys_insert (d : List (Str × Nat)) (k : Str) (v : Nat) :
    (dictInsert d k v).map Prod.fst =
      if k ∈ d.map Prod.fst then d.map Prod.fst else d.map Prod.fst ++ [k] := by
  unfold dictInsert
  by_cases h : d.any (fun p => decide (p.1 = k)) = true
  · rw [if_pos h, if_pos ((any_key_iff d k).1 h), List.map_map]
    congr 1
    funext p
    by_cases hp : p.1 = k
    · simp [Function.comp, hp]
    · simp [Function.comp, hp]
  · rw [if_neg h, if_neg (fun hm => h ((any_key_iff d k).2 hm))]
    simp

/-- Folding the dict comprehension keeps the keys without duplicates,
and the final keys are the folded keys together with the initial ones. -/
lemma foldl_insert_keys (f : Str → Nat) (kws : List Str)
    (d : List (Str × Nat)) (hn : (d.map Prod.fst).Nodup) :
    ((kws.foldl (fun d key => dictInsert d key (f key)) d).map Prod.fst).Nodup ∧
    ∀ k, (k ∈ (kws.foldl (fun d key => dictInsert d key (f key)) d).map Prod.fst ↔
      k ∈ kws ∨ k ∈ d.map Prod.fst) := by
  induction kws generalizing d with
  | nil => exact ⟨hn, fun k => by simp⟩
  | cons a kws ih =>
    simp only [List.foldl_cons]
    have hkeys := keys_insert d a (f a)
    by_cases hm : a ∈ d.map Prod.fst
    · rw [if_pos hm] at hkeys
      have h2 := ih (dictInsert d a (f a)) (by rw [hkeys]; exact hn)
      refine ⟨h2.1, fun k => ?_⟩
      rw [h2.2 k, hkeys]
      constructor
      · rintro (h | h)
        · exact Or.inl (List.mem_cons_of_mem a h)
        · exact Or.inr h
      · rintro (h | h)
        · rcases List.mem_cons.1 h with rfl | h
          · exact Or.inr hm
          · exact Or.inl h
        · exact Or.inr h
    · rw [if_neg hm] at hkeys
      have hn2 : ((dictInsert d a (f a)).map Prod.fst).Nodup := by
        rw [hkeys, List.nodup_append]
        refine ⟨hn, List.nodup_singleton a, ?_⟩
        intro x hx hxa
        rw [List.mem_singleton.1 hxa] at hx
        exact hm hx
      have h2 := ih _ hn2
      refine ⟨h2.1, fun k => ?_⟩
      rw [h2.2 k, hkeys]
      simp only [List.mem_append, List.mem_singleton, List.mem_cons]
      tauto

/-- The single-keyword containment test is the raw substring test. -/
lemma contains_keywords_singleton (t key : Str) :
    contains_keywords t [key] = strIn key t := by
  simp [contains_keywords]

/-- The Python sum of booleans counts the matching titles. -/
lemma countFor_eq_countP (key : Str) (titles : List Str) :
    countFor key titles = titles.countP (fun t => strIn key t) := by
  induction titles with
  | nil => rfl
  | cons t rest ih =>
    simp only [countFor, List.map_cons, List.sum_cons] at ih ⊢
    rw [List.countP_cons, contains_keywords_singleton]
    by_cases hs : strIn key t = true
    · simp [hs, ih, Nat.add_comm]
    · simp [hs, ih]

/-- A count never exceeds the number of counted titles. -/
lemma countFor_le_length (key : Str) (titles : List Str) :
    countFor key titles ≤ titles.length := by
  rw [countFor_eq_countP]
  exact List.countP_le_length _

/-- Claim C1, code-bug evaluation.  The specification states that
max_article = 0 yields an empty filtered list and all-zero counts; on a
one-article tree whose heading reads bank, with keyword bank and
max_article = 0, the code instead returns the nonempty filtered list
holding bank and counts bank once: the cap test compares the length for
equality only after a successful extraction, so once a first matching
title is appended the length is 1 and the test can never again hold. -/
theorem C1_max_article_zero_code_eval :
    get_filtered_titles soupBank [bankS] 0 = [bankS] ∧
    word_count [bankS] (get_filtered_titles soupBank [bankS] 0) = [(bankS, 1)] := by
  decide

/-- Claim C2, counterexample to the unrestricted statement: at
max_article = 0 the filtered list of the one-article bank tree has
length 1, which exceeds max_article. -/
theorem C2_counterexample :
    ¬ (((get_filtered_titles soupBank [bankS] 0).length : Int) ≤ 0) := by
  decide

/-- Claim C2, amended: for every parsed tree, every keyword list and
every positive max_article, the filtered list length never exceeds
max_article. -/
theorem C2_length_le_max_article (soup : Soup) (kws : List Str) (maxa : Int)
    (h : 1 ≤ maxa) :
    ((get_filtered_titles soup kws maxa).length : Int) ≤ maxa := by
  unfold get_filtered_titles
  apply loop_length_le kws maxa soup.articles []
  simp only [List.length_nil, Nat.cast_zero]
  omega

/-- Claim C2, witness: the bound instantiated on a three-article tree
with cap 2. -/
theorem C2_length_le_max_article_witness :
    (1 : Int) ≤ 2 ∧
    ((get_filtered_titles ⟨[⟨some bankS⟩, ⟨some bankS⟩, ⟨some bankS⟩]⟩
        [bankS] 2).length : Int) ≤ 2 :=
  ⟨by decide,
   C2_length_le_max_article ⟨[⟨some bankS⟩, ⟨some bankS⟩, ⟨some bankS⟩]⟩
     [bankS] 2 (by decide)⟩

/-- Claim C3: every title in the filtered output contains at least one
keyword of the keyword list as a contiguous substring. -/
theorem C3_filtered_title_contains_keyword (soup : Soup) (kws : List Str)
    (maxa : Int) (t : Str) (h : t ∈ get_filtered_titles soup kws maxa) :
    ∃ k ∈ kws, strIn k t = true := by
  rcases loop_mem kws maxa soup.articles [] t h with hm | hm
  · cases hm
  · simpa [contains_keywords, List.any_eq_true] using hm

/-- Claim C3, witness: instantiated on the one-article bank tree. -/
theorem C3_witness : ∃ k ∈ [bankS], strIn k bankS = true :=
  C3_filtered_title_contains_keyword soupBank [bankS] 5 bankS (by decide)

/-- Claim C4: the count of each keyword of the list is computed over the
final capped filtered list, that is, it equals the number of titles of
that capped list containing the keyword as a substring. -/
theorem C4_count_over_capped_list (soup : Soup) (kws : List Str) (maxa : Int)
    (k : Str) (hk : k ∈ kws) :
    dictLookup (word_count kws (get_filtered_titles soup kws maxa)) k =
      some ((get_filtered_titles soup kws maxa).countP (fun t => strIn k t)) := by
  rw [← countFor_eq_countP]
  exact foldl_insert_lookup
    (fun key => countFor key (get_filtered_titles soup kws maxa)) kws [] k
    (Or.inl hk)

/-- Claim C4, witness: the concrete example of the specification, titles
bank and bank bank, keyword bank, max_article = 1: the filtered list is
the single title bank and the keyword counts once. -/
theorem C4_witness :
    get_filtered_titles soupBanks2 [bankS] 1 = [bankS] ∧
    word_count [bankS] (get_filtered_titles soupBanks2 [bankS] 1) = [(bankS, 1)] ∧
    dictLookup (word_count [bankS] (get_filtered_titles soupBanks2 [bankS] 1)) bankS =
      some ((get_filtered_titles soupBanks2 [bankS] 1).countP (fun t => strIn bankS t)) :=
  ⟨by decide, by decide,
   C4_count_over_capped_list soupBanks2 [bankS] 1 bankS (by decide)⟩

/-- Claim C5, counterexample: with the duplicated keyword list holding
bank twice, the count mapping has a single entry, not one entry per
input keyword, because the dict comprehension merges equal keys. -/
theorem C5_counterexample :
    (word_count [bankS, bankS] [bankS]).length ≠ ([bankS, bankS] : List Str).length := by
  decide

/-- Claim C5, amended: the count mapping has exactly one entry per
distinct input keyword, zero-valued entries included, and duplicate
keywords are merged into that single entry, which carries the count of
the keyword over the titles. -/
theorem C5_one_entry_per_distinct_keyword (kws titles : List Str) :
    ((word_count kws titles).map Prod.fst).Nodup ∧
    (∀ k, k ∈ (word_count kws titles).map Prod.fst ↔ k ∈ kws) ∧
    (∀ k, k ∈ kws → dictLookup (word_count kws titles) k = some (countFor k titles)) := by
  unfold word_count
  have h := foldl_insert_keys (fun key => countFor key titles) kws [] (by simp)
  exact ⟨h.1, fun k => by simpa using h.2 k,
    fun k hk => foldl_insert_lookup _ kws [] k (Or.inl hk)⟩

/-- Claim C5, witness: the amended statement instantiated on the
duplicated keyword list bank, bank over the one-title list bank. -/
theorem C5_witness :
    ((word_count [bankS, bankS] [bankS]).map Prod.fst).Nodup ∧
    dictLookup (word_count [bankS, bankS] [bankS]) bankS = some (countFor bankS [bankS]) :=
  ⟨(C5_one_entry_per_distinct_keyword [bankS, bankS] [bankS]).1,
   (C5_one_entry_per_distinct_keyword [bankS, bankS] [bankS]).2.2 bankS (by decide)⟩

/-- Claim C6: an article node without a level-4 heading is skipped
locally, contributing no title and leaving every other node unaffected,
and on the concrete five-article tree whose third node lacks a heading
the extraction yields exactly the four remaining titles in their
original relative order (the empty keyword matches every title and the
cap of 10 is never reached). -/
theorem C6_missing_heading_skipped :
    (∀ (l1 l2 : List Article) (kws : List Str) (maxa : Int),
      get_filtered_titles ⟨l1 ++ Article.mk none :: l2⟩ kws maxa =
        get_filtered_titles ⟨l1 ++ l2⟩ kws maxa) ∧
    get_filtered_titles soupFive [([] : Str)] 10 =
      ["n one".toList, "n two".toList, "n four".toList, "n five".toList] := by
  constructor
  · intro l1 l2 kws maxa
    unfold get_filtered_titles
    exact loop_skip_none kws maxa l1 l2 []
  · decide

/-- Claim C7: with an empty keyword list the pipeline returns an empty
filtered list and an empty count mapping, exporting an empty row set
and rendering an empty chart. -/
theorem C7_empty_keyword_list (soup : Soup) (maxa : Int) :
    scrape_and_analyze (Except.ok soup) [] maxa =
      Except.ok ([Effect.exportRows [], Effect.renderChart []], [], []) := by
  have h : get_filtered_titles soup [] maxa = [] := loop_nil_kws maxa soup.articles []
  simp [scrape_and_analyze, h, word_count]

/-- Claim C8: the count assigned to any input keyword is at most the
length of the filtered title list. -/
theorem C8_count_le_filtered_length (soup : Soup) (kws : List Str) (maxa : Int)
    (k : Str) (hk : k ∈ kws) (c : Nat)
    (hc : dictLookup (word_count kws (get_filtered_titles soup kws maxa)) k = some c) :
    c ≤ (get_filtered_titles soup kws maxa).length := by
  unfold word_count at hc
  have h2 : countFor k (get_filtered_titles soup kws maxa) = c :=
    Option.some.inj
      ((foldl_insert_lookup
          (fun key => countFor key (get_filtered_titles soup kws maxa)) kws [] k
          (Or.inl hk)).symm.trans hc)
  rw [← h2]
  exact countFor_le_length k _

/-- Claim C8, witness: instantiated on the one-article bank tree, whose
count 1 is bounded by the filtered length. -/
theorem C8_witness : (1 : Nat) ≤ (get_filtered_titles soupBank [bankS] 5).length :=
  C8_count_le_filtered_length soupBank [bankS] 5 bankS (by decide) 1 (by decide)

/-- Claim C9: a fetch or whole-document parse failure propagates out of
the orchestrator unchanged, and the run produces no effect list, no
title list and no count mapping: no ok outcome at all, hence nothing
exported and nothing rendered. -/
theorem C9_fetch_failure_propagates (e : String) (kws : List Str) (maxa : Int) :
    scrape_and_analyze (Except.error e) kws maxa = Except.error e ∧
    ∀ out, scrape_and_analyze (Except.error e) kws maxa ≠ Except.ok out := by
  refine ⟨rfl, fun out h => ?_⟩
  exact Except.noConfusion h

/-- Claim C10: a negative max_article never triggers the cap, since the
stopping test compares the length for equality with max_article, so the
filter returns every matching title of the tree. -/
theorem C10_negative_max_article_no_cap (soup : Soup) (kws : List Str)
    (maxa : Int) (h : maxa < 0) :
    get_filtered_titles soup kws maxa = allMatchingTitles soup kws := by
  unfold get_filtered_titles allMatchingTitles
  simpa using loop_neg kws maxa h soup.articles []

/-- Claim C10, witness: with max_article = -1 the two-article bank tree
yields both matching titles, the full uncapped matching list. -/
theorem C10_witness :
    (-1 : Int) < 0 ∧
    get_filtered_titles soupBanks2 [bankS] (-1) = allMatchingTitles soupBanks2 [bankS] :=
  ⟨by decide, C10_negative_max_article_no_cap soupBanks2 [bankS] (-1) (by decide)⟩
